import Mathlib

/-!
# GoodreadsAnalysis — verification of the core spec

A shallow embedding of the repository's core: the `Book` entity (raw record
wrapping, patch overlay, date-bounded read state, title series parsing,
property accessors) and the aggregation engines of `utils/transformers.py`
(`ReadVsUnreadReport`, `BestRankedReport`), together with theorems settling
the frozen claims about them.

The file `utils/transformers.py` is embedded directly from its source.
The `Book` class itself (`utils/book.py`) is not part of the provided
sources — only its test suite `utils/tests/test_book.py` is — so the Book
definitions below are modelled from the spec, constrained by that test
suite wherever the two disagree (the tests are code of the repository and
therefore authoritative).
-/

namespace GoodreadsAnalysis

/-! ## Generic list helpers -/

/-- Split a list at the first occurrence of `c`: returns the prefix before
`c` and the suffix starting at `c` (empty when `c` does not occur). -/
def breakAt (c : Char) : List Char → List Char × List Char
  | [] => ([], [])
  | x :: xs =>
    if x = c then ([], x :: xs)
    else
      let p := breakAt c xs
      (x :: p.1, p.2)

/-! ## Book raw records and the patch overlay

A raw record is a mapping from field names to string values (§6 of the
spec); inside the Book the raw export column names are renamed to the
attribute names that the patch rules and the property accessors use
(the test suite's patches address fields as `title`, `author`,
`year_published`, `state`, `pagination`, ...). We model a record as an
association list looked up by key, a blank value denoting absence. -/

/-- A record: association list from field/attribute name to string value. -/
abbrev Record : Type := List (String × String)

/-- Value of field `k` of a record; missing fields read as the blank
string (blank denotes absence, §6). -/
def getField (r : Record) (k : String) : String :=
  match r with
  | [] => ""
  | (f, v) :: t => if k = f then v else getField t k

/-- Overwrite field `k` with value `v`, dictionary-style: replace the
first binding of `k` in place, or append a new binding when absent. -/
def setField (r : Record) (k : String) (v : String) : Record :=
  match r with
  | [] => [(k, v)]
  | (f, w) :: t => if k = f then (k, v) :: t else (f, w) :: setField t k v

/-- Modelled from the spec: renaming of the raw export's column names
(§6) to the Book's internal attribute names, as used by the patch rules
and properties exercised in `test_book.py` (`utils/book.py` itself is not
among the provided sources). -/
def toAttrs (raw : Record) : Record :=
  [ ("title", getField raw "Title"),
    ("author", getField raw "Author"),
    ("additional_authors", getField raw "Additional Authors"),
    ("originally_published_year", getField raw "Original Publication Year"),
    ("publisher", getField raw "Publisher"),
    ("year_published", getField raw "Year Published"),
    ("pagination", getField raw "Number of Pages"),
    ("binding", getField raw "Binding"),
    ("average_rating", getField raw "Average Rating"),
    ("book_id", getField raw "Book Id"),
    ("state", getField raw "Exclusive Shelf"),
    ("raw_shelves", getField raw "Bookshelves"),
    ("rating", getField raw "My Rating"),
    ("date_added", getField raw "Date Added"),
    ("date_read", getField raw "Date Read"),
    ("read_count", getField raw "Read Count") ]

/-- A patch rule: a list of (field, exact-value) match conditions paired
with a list of (field, new-value) assignments (§3 of the spec). -/
abbrev Patch : Type := List (String × String) × List (String × String)

/-- A patch rule matches a record when every condition field has exactly
the condition's value. -/
def patchMatches (orig : Record) (conds : List (String × String)) : Bool :=
  conds.all (fun c => getField orig c.1 == c.2)

/-- Apply one rule's assignments to a record. -/
def applyAssignments (r : Record) (asgs : List (String × String)) : Record :=
  asgs.foldl (fun acc a => setField acc a.1 a.2) r

/-- Modelled from the spec: the patch overlay of the missing
`utils/book.py`. Matching always consults the original, pre-patch
attribute values (§3: "matching always uses pre-patch raw values").
Where §3 additionally says only the first fully-matching rule's
assignments apply, the repository's own test `TestBook.test_patching`
requires the assignments of every matching rule to be applied (it
asserts effects of both its first and its second matching rule), so this
model applies every rule whose conditions match, in rule order. -/
def applyPatches (orig : Record) (patches : List Patch) : Record :=
  patches.foldl
    (fun cur p => if patchMatches orig p.1 then applyAssignments cur p.2 else cur)
    orig

/-- The patch behaviour as claim C1 words it (first-match-wins): only the
first rule whose every condition matches the original values has its
assignments applied; all later rules are ignored. Stated from the claim's
words, for comparison against `applyPatches`. -/
def applyFirstMatchingPatch (orig : Record) (patches : List Patch) : Record :=
  match patches.find? (fun p => patchMatches orig p.1) with
  | some p => applyAssignments orig p.2
  | none => orig

/-- The value field `f` ends up with under the patch list, computed
directly: the last assignment to `f` among the rules whose conditions
match the original record, if any. -/
def lastPatchedValue (orig : Record) (patches : List Patch) (f : String) :
    Option String :=
  ((patches.filter (fun p => patchMatches orig p.1)).flatMap (fun p => p.2)).foldl
    (fun acc a => if a.1 = f then some a.2 else acc) none

/-! ## Title parsing: series name and volume designator

Modelled from the spec (§4.1 "Title parsing algorithm") for the missing
`utils/book.py`, constrained by the repository's test suite
`test_book.py`, which is authoritative where the spec's step-by-step
description disagrees with it (the tests require the *first*
number-sign-and-number pair in the parenthetical to win, with everything
before it as the series name — e.g. the multiple-series and
comma-in-series-name tests — rather than a split at the first comma). -/

/-- Characters allowed in a volume designator after the number sign:
digits, decimal point, hyphen (ordinals, decimals, ranges like 1-3). -/
def isVolChar (c : Char) : Bool := c.isDigit || c = '.' || c = '-'

def isSpaceChar (c : Char) : Bool := c = ' '

/-- Remove spaces from both ends. -/
def trimSpaces (l : List Char) : List Char :=
  ((l.dropWhile isSpaceChar).reverse.dropWhile isSpaceChar).reverse

/-- Remove one trailing comma, if present. -/
def dropTrailingComma (l : List Char) : List Char :=
  if l.getLast? = some ',' then l.dropLast else l

/-- Strip a leading word "The " (the only cosmetic prefix normalization,
§4.1 step 3). -/
def stripLeadingThe (l : List Char) : List Char :=
  if l.take 4 = ['T', 'h', 'e', ' '] then l.drop 4 else l

/-- Remove a trailing word `w` (preceded by a space), if present. -/
def dropWordSuffix (w : List Char) (l : List Char) : List Char :=
  let suf := (' ' :: w).reverse
  if suf.isPrefixOf l.reverse then (l.reverse.drop suf.length).reverse else l

/-- Tidy a candidate series name: trim spaces, drop a trailing comma,
strip the cosmetic leading "The ". -/
def cleanSeriesName (l : List Char) : List Char :=
  stripLeadingThe (trimSpaces (dropTrailingComma (trimSpaces l)))

/-- Parenthetical content with no number-sign volume token: look for a
bare trailing number preceded by whitespace (optionally preceded by the
words "Book" and "Trilogy", which are stripped from the series name);
with no volume token at all the whole content is the series name. -/
def seriesVolumeNoHash (content : List Char) :
    Option (List Char × Option (List Char)) :=
  let t := trimSpaces content
  let rev := t.reverse
  let num := rev.takeWhile Char.isDigit
  if num.isEmpty || !((rev.drop num.length).head? = some ' ') then
    let s := cleanSeriesName content
    if s.isEmpty then none else some (s, none)
  else
    let remainder := (rev.drop num.length).reverse
    let s := cleanSeriesName
      (dropWordSuffix ['T', 'r', 'i', 'l', 'o', 'g', 'y']
        (dropWordSuffix ['B', 'o', 'o', 'k'] (trimSpaces remainder)))
    if s.isEmpty then none else some (s, some num.reverse)

/-- Interpret the content of a trailing parenthetical: the first number
sign followed by volume characters yields the volume designator, with
everything before that number sign (tidied) as the series name;
otherwise fall back to the bare-trailing-number / no-volume cases. -/
def seriesVolumeOfContent (content : List Char) :
    Option (List Char × Option (List Char)) :=
  match breakAt '#' content with
  | (pre, _hash :: rest) =>
    let vol := rest.takeWhile isVolChar
    if vol.isEmpty then seriesVolumeNoHash content
    else
      let s := cleanSeriesName pre
      if s.isEmpty then none else some (s, some vol)
  | (_, []) => seriesVolumeNoHash content

/-- Modelled from the spec: `Book._series_and_volume` of the missing
`utils/book.py` (§4.1). A title yields a series only when it ends with a
closing parenthesis; the analyzed content is what follows the first
opening parenthesis (so "Foo (Bar) Baz" yields nothing). -/
def seriesAndVolumeCore (title : List Char) :
    Option (List Char × Option (List Char)) :=
  if title.getLast? = some ')' then
    match breakAt '(' title.dropLast with
    | (_, _paren :: content) => seriesVolumeOfContent content
    | (_, []) => none
  else none

/-- String-level wrapper for `seriesAndVolumeCore`. -/
def seriesAndVolume (title : String) : Option (String × Option String) :=
  (seriesAndVolumeCore title.toList).map
    (fun p => (String.mk p.1, Option.map String.mk p.2))

/-! ## Dates and Book construction -/

/-- A calendar date parsed from the fixed `YYYY/MM/DD` text format. -/
structure Date where
  year : ℕ
  month : ℕ
  day : ℕ
deriving DecidableEq

/-- Strict "is earlier than" on dates (lexicographic on year, month,
day), the comparison the historical view uses. -/
def Date.earlier (a b : Date) : Bool :=
  decide (a.year < b.year) ||
    (a.year == b.year && (decide (a.month < b.month) ||
      (a.month == b.month && decide (a.day < b.day))))

/-- Split a character list on every occurrence of `c`. -/
def splitOnChar (c : Char) : List Char → List (List Char)
  | [] => [[]]
  | x :: xs =>
    let r := splitOnChar c xs
    if x = c then [] :: r
    else
      match r with
      | [] => [[x]]
      | h :: t => (x :: h) :: t

/-- Parse a nonempty all-digit character list as a natural number. -/
def digitsToNat (l : List Char) : Option ℕ :=
  if l.isEmpty || !(l.all Char.isDigit) then none
  else some (l.foldl (fun n c => 10 * n + (c.toNat - 48)) 0)

/-- Parse a date from the fixed `YYYY/MM/DD` format; a blank or
malformed field yields an absent value (§4.1). -/
def parseDate (s : String) : Option Date :=
  match splitOnChar '/' s.toList with
  | [y, m, d] =>
    match digitsToNat y, digitsToNat m, digitsToNat d with
    | some yy, some mm, some dd => some ⟨yy, mm, dd⟩
    | _, _, _ => none
  | _ => none

/-- The one core-defined error kind: raised at construction time when an
as-of date precedes the add-date (§7). -/
inductive BookError where
  | notOwnedAtSpecifiedDate
deriving DecidableEq

/-- The Book entity: the patched attribute record plus the derived
date-bounded state the claims consult. -/
structure Book where
  attrs : List (String × String)
  asOfDate : Option Date
  dateAdded : Option Date
  dateRead : Option Date
  isRead : Bool

/-- Modelled from the spec: the always-succeeding part of Book
construction from the missing `utils/book.py` (§4.1): rename the raw
fields, apply the patch overlay, parse the dates, and derive the
read/unread classification — without an as-of date a book is read iff
its exclusive shelf is "read"; with an as-of date it is read iff its
read-date exists and is on or before that date (the read-date field
itself stays exposed unchanged, the preserved quirk of §9). -/
def mkBookCore (raw : Record) (asOf : Option Date) (patches : List Patch) :
    Book :=
  let attrs := applyPatches (toAttrs raw) patches
  let added := parseDate (getField attrs "date_added")
  let readDate := parseDate (getField attrs "date_read")
  let isRd :=
    match asOf with
    | none => getField attrs "state" == "read"
    | some d =>
      match readDate with
      | some r => !(Date.earlier d r)
      | none => false
  { attrs := attrs, asOfDate := asOf, dateAdded := added,
    dateRead := readDate, isRead := isRd }

/-- Modelled from the spec: Book construction (§4.1): fails with
`NotOwnedAtSpecifiedDateError` iff an as-of date is provided that is
strictly earlier than the parsed add-date. -/
def mkBook (raw : Record) (asOf : Option Date) (patches : List Patch) :
    Except BookError Book :=
  match asOf, (mkBookCore raw asOf patches).dateAdded with
  | some d, some a =>
    if Date.earlier d a then Except.error BookError.notOwnedAtSpecifiedDate
    else Except.ok (mkBookCore raw asOf patches)
  | _, _ => Except.ok (mkBookCore raw asOf patches)

def Book.state (b : Book) : String := getField b.attrs "state"

/-! ## Property accessors (sequence and hashable forms) -/

/-- A scalar property value: each supported grouping attribute yields
either strings or naturals, never a mixture. -/
inductive PropValue where
  | pvStr (s : String)
  | pvNat (n : ℕ)
deriving DecidableEq

/-- Split a comma-separated list field; blank denotes the empty list
(§6). -/
def splitListField (s : String) : List String :=
  if s = "" then []
  else (splitOnChar ',' s.toList).map (fun l => String.mk (trimSpaces l))

/-- Shelf tags unioned with the exclusive-shelf value (§3). -/
def Book.shelves (b : Book) : List String :=
  (splitListField (getField b.attrs "raw_shelves") ++ [b.state]).dedup

/-- Rating, with 0 surfaced as an absent value (§3 invariant). -/
def Book.ratingValue (b : Book) : Option ℕ :=
  match digitsToNat (getField b.attrs "rating").toList with
  | some 0 => none
  | some n => some n
  | none => none

/-- The closed enumeration of grouping attributes the claims exercise
(§9 asks for an explicit closed mapping of supported names). -/
inductive BookAttr where
  | shelves
  | additionalAuthors
  | allAuthors
  | rating
  | state
deriving DecidableEq

/-- Modelled from the spec: `Book.property_as_sequence` (§4.1): a plural
property yields its natural multi-value sequence; a singular property is
wrapped into a one-element sequence; an absent singular value yields an
empty sequence. -/
def propertyAsSequence (b : Book) : BookAttr → List PropValue
  | BookAttr.shelves => b.shelves.map PropValue.pvStr
  | BookAttr.additionalAuthors =>
    (splitListField (getField b.attrs "additional_authors")).map PropValue.pvStr
  | BookAttr.allAuthors =>
    (getField b.attrs "author" ::
      splitListField (getField b.attrs "additional_authors")).map PropValue.pvStr
  | BookAttr.rating =>
    match b.ratingValue with
    | some n => [PropValue.pvNat n]
    | none => []
  | BookAttr.state => [PropValue.pvStr b.state]

/-- A total order on property values (naturals before strings; each kind
by its natural order) giving the hashable accessor its deterministic
order. -/
def pvLe : PropValue → PropValue → Prop
  | PropValue.pvNat n, PropValue.pvNat m => n ≤ m
  | PropValue.pvStr s, PropValue.pvStr t => s ≤ t
  | PropValue.pvNat _, PropValue.pvStr _ => True
  | PropValue.pvStr _, PropValue.pvNat _ => False

instance : DecidableRel pvLe := by
  intro a b
  cases a <;> cases b <;> simp only [pvLe] <;> infer_instance

/-- Modelled from the spec: `Book.property_as_hashable` (§4.1): the same
values as `property_as_sequence`, as an ordered tuple in a deterministic
order (the tests show the order is the values' natural sorted order). -/
def propertyAsHashable (b : Book) (a : BookAttr) : List PropValue :=
  List.insertionSort pvLe (propertyAsSequence b a)

/-! ## The aggregation engines (`utils/transformers.py`)

Embedded directly from the source. The reports consume only each book's
`property_as_sequence(key_attribute)` values, its `is_unread` flag and
its `rating`, so books enter this part of the embedding through that
interface (a `BookView`). Python dictionaries with a default of zero are
modelled as total functions `K → ℕ` together with the insertion-ordered
list of keys actually inserted (`dom`), which is what iterating the
dictionary yields. Python's `if key:` truthiness test on a grouping key
is modelled by an explicit `truthy` predicate on keys, and real (float)
division by exact division in `ℚ`. -/

/-- What a report reads from a `Book` (its property-access contract). -/
structure BookView (K : Type) where
  keys : List K
  is_unread : Bool
  rating : ℕ

/-- `ReadVsUnreadStat = namedtuple(.., 'key, percentage_read, difference')` -/
structure RVUStat (K : Type) where
  key : K
  percentage_read : ℤ
  difference : ℤ
deriving DecidableEq

/-- `compare_rvustat` from `transformers.py`, verbatim: equal percentages
fall through to the absolute difference comparison, a zero there falls
through to the key comparison (1 when `a.key > b.key`, else -1). -/
def compare_rvustat {K : Type} [LinearOrder K] (a b : RVUStat K) : ℤ :=
  if a.percentage_read = b.percentage_read then
    if |b.difference| - |a.difference| = 0 then (if a.key > b.key then 1 else -1)
    else |b.difference| - |a.difference|
  else a.percentage_read - b.percentage_read

/-- Increment one entry of a zero-defaulted counting dictionary. -/
def bump {K : Type} [DecidableEq K] (f : K → ℕ) (k : K) : K → ℕ :=
  fun j => if j = k then f k + 1 else f j

/-- State of a `ReadVsUnreadReport`: the three count dictionaries (with
`dom` the insertion-ordered key list of `grouping_count`), the
constructor flag, and the stats list `process` fills in. -/
structure ReadVsUnreadReport (K : Type) where
  unread_count : K → ℕ
  read_count : K → ℕ
  grouping_count : K → ℕ
  dom : List K
  ignore_single_book_groups : Bool
  stats : List (RVUStat K)

/-- One key contribution in `ReadVsUnreadReport.__init__`: bump
`grouping_count[key]` and, according to `book.is_unread`, exactly one of
`unread_count[key]` / `read_count[key]`. -/
def rvuAddKey {K : Type} [DecidableEq K] (isUnread : Bool)
    (s : ReadVsUnreadReport K) (k : K) : ReadVsUnreadReport K :=
  { s with
    grouping_count := bump s.grouping_count k
    dom := if k ∈ s.dom then s.dom else s.dom ++ [k]
    unread_count := if isUnread then bump s.unread_count k else s.unread_count
    read_count := if isUnread then s.read_count else bump s.read_count k }

/-- `ReadVsUnreadReport.__init__`: for every book and every key the
book's grouping property yields, contribute the key unless it is falsy
under `ignore_undefined_book_groups`. -/
def mkReadVsUnreadReport {K : Type} [DecidableEq K] (truthy : K → Bool)
    (books : List (BookView K))
    (ignoreSingleBookGroups ignoreUndefinedBookGroups : Bool) :
    ReadVsUnreadReport K :=
  books.foldl
    (fun s bk =>
      bk.keys.foldl
        (fun t k =>
          if truthy k || !ignoreUndefinedBookGroups then rvuAddKey bk.is_unread t k
          else t)
        s)
    { unread_count := fun _ => 0, read_count := fun _ => 0,
      grouping_count := fun _ => 0, dom := [],
      ignore_single_book_groups := ignoreSingleBookGroups, stats := [] }

/-! ### Binary64 model of the percentage expression

`ReadVsUnreadReport.process` computes `int(100 * (rd / (rd+ur)))`.
CPython evaluates `rd / (rd+ur)` as a correctly rounded IEEE-754 binary64
division (round to nearest, ties to even) and likewise the product with
the exactly representable constant 100, then `int()` truncates toward
zero. The model below implements exactly that on nonnegative values:
a positive finite double is a mantissa/exponent pair `(m, e)` of value
`m * 2^(e-52)` with `2^52 ≤ m ≤ 2^53`, and each operation rounds the
exact rational result to 53 significant bits, ties to even (the
exponent range of binary64 is not modelled: every value arising here is
far inside the normal range for any remotely realistic book count).
All arithmetic is on naturals/integers so the kernel can evaluate it. -/

/-- Fuel-based floor of the binary logarithm (structural recursion). -/
def log2fuel : ℕ → ℕ → ℕ
  | 0, _ => 0
  | fuel + 1, n => if n < 2 then 0 else log2fuel fuel (n / 2) + 1

/-- Floor of the binary logarithm of a positive natural. -/
def natLog2 (n : ℕ) : ℕ := log2fuel n n

/-- Round-half-even selection given quotient `q`, remainder `r` and
divisor `B`. -/
def rhe (q r B : ℕ) : ℕ :=
  if 2 * r < B then q
  else if B < 2 * r then q + 1
  else if q % 2 = 0 then q else q + 1

/-- `A / B` rounded to the nearest integer, ties to even. -/
def divRHE (A B : ℕ) : ℕ := rhe (A / B) (A % B) B

/-- Whether `2^z ≤ a / b`, expressed over the naturals. -/
def pow2LeFrac (z : ℤ) (a b : ℕ) : Prop :=
  b * 2 ^ z.toNat ≤ a * 2 ^ (-z).toNat

instance (z : ℤ) (a b : ℕ) : Decidable (pow2LeFrac z a b) := by
  unfold pow2LeFrac
  infer_instance

/-- Floor of the binary logarithm of the positive fraction `a / b`. -/
def floorLog2Frac (a b : ℕ) : ℤ :=
  if pow2LeFrac ((natLog2 a : ℤ) - (natLog2 b : ℤ)) a b
  then (natLog2 a : ℤ) - (natLog2 b : ℤ)
  else (natLog2 a : ℤ) - (natLog2 b : ℤ) - 1

/-- Binary64 division `a / b` of positive naturals: mantissa and
exponent of the correctly rounded quotient (round to nearest, ties to
even). -/
def fldivPair (a b : ℕ) : ℕ × ℤ :=
  if floorLog2Frac a b ≤ 52 then
    (divRHE (a * 2 ^ (52 - floorLog2Frac a b).toNat) b, floorLog2Frac a b)
  else
    (divRHE a (b * 2 ^ (floorLog2Frac a b - 52).toNat), floorLog2Frac a b)

/-- Binary64 product of the exactly representable constant 100 with the
double `m * 2^(e-52)`, correctly rounded. -/
def flmul100 (m : ℕ) (e : ℤ) : ℕ × ℤ :=
  if natLog2 (100 * m) ≤ 52 then
    (100 * m * 2 ^ (52 - natLog2 (100 * m)), (natLog2 (100 * m) : ℤ) + e - 52)
  else
    (divRHE (100 * m) (2 ^ (natLog2 (100 * m) - 52)),
      (natLog2 (100 * m) : ℤ) + e - 52)

/-- `int()` truncation of the nonnegative double `m * 2^(e-52)`. -/
def floorOfDyadic (m : ℕ) (e : ℤ) : ℕ :=
  if 52 ≤ e then m * 2 ^ (e - 52).toNat else m / 2 ^ (52 - e).toNat

/-- The exact rational value of the double `m * 2^(e-52)`. -/
def dyadicVal (m : ℕ) (e : ℤ) : ℚ := (m : ℚ) * 2 ^ (e - 52)

/-- `int(100 * (rd / (rd+ur)))` as CPython computes it: the division and
the product in binary64 (`0 / n` is exactly 0.0), then truncation — which
is floor, the operand being nonnegative. -/
def percentageRead (rd ur : ℕ) : ℕ :=
  if rd = 0 then 0
  else
    floorOfDyadic
      (flmul100 (fldivPair rd (rd + ur)).1 (fldivPair rd (rd + ur)).2).1
      (flmul100 (fldivPair rd (rd + ur)).1 (fldivPair rd (rd + ur)).2).2

/-- The percentage as claim C7 words it: truncating (for nonnegative
counts, flooring) 100 times the exact read ratio. Stated from the
claim's words, for comparison against `percentageRead`. -/
def exactPercentageRead (rd ur : ℕ) : ℕ := 100 * rd / (rd + ur)

/-- `ReadVsUnreadReport.process`: one stat per grouping key in
dictionary order, skipping single-member groups when the flag says so;
the `ZeroDivisionError` branch (a zero denominator) is caught and only
logged, producing no stat. Returns the updated report ("return self"). -/
def rvuProcess {K : Type} [DecidableEq K] (r : ReadVsUnreadReport K) :
    ReadVsUnreadReport K :=
  { r with
    stats := r.dom.filterMap (fun k =>
      let rd := r.read_count k
      let ur := r.unread_count k
      if r.ignore_single_book_groups ∧ rd + ur = 1 then none
      else if rd + ur = 0 then none
      else some ⟨k, (percentageRead rd ur : ℤ), (rd : ℤ) - (ur : ℤ)⟩) }

/-- The precedes-or-equal relation `sorted(key=cmp_to_key(compare_rvustat))`
orders by. -/
def rvuSortLe {K : Type} [LinearOrder K] (a b : RVUStat K) : Prop :=
  compare_rvustat a b ≤ 0

instance {K : Type} [LinearOrder K] : DecidableRel (@rvuSortLe K _) := by
  intro a b
  unfold rvuSortLe
  infer_instance

/-- The order in which `ReadVsUnreadReport.render` emits its stats:
`sorted(self.stats, key=cmp_to_key(compare_rvustat))`. -/
def rvuRenderOrder {K : Type} [LinearOrder K] (r : ReadVsUnreadReport K) :
    List (RVUStat K) :=
  List.insertionSort rvuSortLe r.stats

/-- `BestRankedStat = namedtuple(.., 'key, average_rating, number_of_books_rated')` -/
structure BestRankedStat (K : Type) where
  key : K
  average_rating : ℚ
  number_of_books_rated : ℕ
deriving DecidableEq

/-- State of a `BestRankedReport`: rated-book count, cumulative rating
and per-rating histogram dictionaries (with `dom` the insertion-ordered
key list of `rated_count`), the constructor flag, and the stats list. -/
structure BestRankedReport (K : Type) where
  rated_count : K → ℕ
  cumulative_rating : K → ℕ
  rating_groupings : K → List ℕ
  dom : List K
  ignore_single_book_groups : Bool
  stats : List (BestRankedStat K)

/-- One key contribution in `BestRankedReport.__init__` for a rated book
with rating `br`. -/
def brrAddKey {K : Type} [DecidableEq K] (br : ℕ)
    (s : BestRankedReport K) (k : K) : BestRankedReport K :=
  { s with
    rated_count := bump s.rated_count k
    cumulative_rating := fun j =>
      if j = k then s.cumulative_rating k + br else s.cumulative_rating j
    rating_groupings := fun j =>
      if j = k then (s.rating_groupings k).set br
        ((s.rating_groupings k).getD br 0 + 1)
      else s.rating_groupings j
    dom := if k ∈ s.dom then s.dom else s.dom ++ [k] }

/-- `BestRankedReport.__init__`: only books with a nonzero rating
contribute, to every non-falsy key their grouping property yields. The
histogram default is the six-slot row with index 0 the unused
placeholder. -/
def mkBestRankedReport {K : Type} [DecidableEq K] (truthy : K → Bool)
    (books : List (BookView K))
    (ignoreSingleBookGroups ignoreUndefinedBookGroups : Bool) :
    BestRankedReport K :=
  books.foldl
    (fun s bk =>
      if bk.rating ≠ 0 then
        bk.keys.foldl
          (fun t k =>
            if truthy k || !ignoreUndefinedBookGroups then brrAddKey bk.rating t k
            else t)
          s
      else s)
    { rated_count := fun _ => 0, cumulative_rating := fun _ => 0,
      rating_groupings := fun _ => [0, 0, 0, 0, 0, 0], dom := [],
      ignore_single_book_groups := ignoreSingleBookGroups, stats := [] }

/-- `BestRankedReport.process`: for every key of `rated_count` in
dictionary order compute the average rating (exact division in `ℚ`) and
keep the stat unless single-rated groups are being ignored. Returns the
updated report ("return self"). -/
def brrProcess {K : Type} [DecidableEq K] (r : BestRankedReport K) :
    BestRankedReport K :=
  { r with
    stats := r.dom.filterMap (fun k =>
      let rdr := r.rated_count k
      let av : ℚ := (r.cumulative_rating k : ℚ) / (rdr : ℚ)
      if ¬ r.ignore_single_book_groups ∨ rdr > 1 then
        some ⟨k, av, rdr⟩
      else none) }

/-! ## Concrete data from the repository's test suite -/

/-- `TestBook.MOCK_BOOK` from `utils/tests/test_book.py`. -/
def mockRecord : Record :=
  [ ("Title", "A Mock Book"),
    ("Author", "Mick Mock"),
    ("Additional Authors", "Terry Test, Peter Python"),
    ("Original Publication Year", "2001"),
    ("Publisher", "Mock Corp"),
    ("Year Published", "2002"),
    ("Number of Pages", "123"),
    ("Binding", "Paperback"),
    ("Average Rating", "1.23"),
    ("Book Id", "12345678"),
    ("Exclusive Shelf", "read"),
    ("Bookshelves", "testing, mocking, software, python"),
    ("My Rating", "4"),
    ("Date Added", "2012/12/22"),
    ("Date Read", "2015/12/25"),
    ("Read Count", "1") ]

/-- The patch list of `TestBook.test_patching`. -/
def testPatches : List Patch :=
  [ ([("title", "A Mock Book"), ("author", "Mick Mock")],
     [("year_published", "2019")]),
    ([("author", "Mick Mock")],
     [("state", "to-read")]),
    ([("title", "This Will Not Be Applied")],
     [("pagination", "999")]) ]

/-- The Book the mock record constructs with no as-of date and no
patches. -/
def mockBook : Book := mkBookCore mockRecord none []

/-- The accumulator of the last assignment to a field while walking an
assignment list. -/
def lastAssign (asgs : List (String × String)) (f : String) : Option String :=
  asgs.foldl (fun acc a => if a.1 = f then some a.2 else acc) none

/-! # Theorems -/

/-! ## List helper lemmas -/

/-- Invariance of a predicate under a left fold. -/
theorem foldl_induction {σ α : Type} (step : σ → α → σ) (P : σ → Prop)
    (l : List α) (init : σ) (h0 : P init)
    (hstep : ∀ s a, P s → P (step s a)) : P (l.foldl step init) := by
  induction l generalizing init with
  | nil => exact h0
  | cons x xs ih => exact ih (step init x) (hstep init x h0)

theorem breakAt_cons_ne {c x : Char} {xs : List Char} (h : x ≠ c) :
    breakAt c (x :: xs) = ((x :: (breakAt c xs).1), (breakAt c xs).2) := by
  simp [breakAt, h]

theorem breakAt_cons_eq {c : Char} {xs : List Char} :
    breakAt c (c :: xs) = ([], c :: xs) := by
  simp [breakAt]

/-- `breakAt` passes over a prefix that does not contain the split
character. -/
theorem breakAt_append_of_not_mem {c : Char} {l₁ l₂ : List Char}
    (h : c ∉ l₁) :
    breakAt c (l₁ ++ l₂) = (l₁ ++ (breakAt c l₂).1, (breakAt c l₂).2) := by
  induction l₁ with
  | nil => simp
  | cons x xs ih =>
    have hx : x ≠ c := by rintro rfl; exact h (List.mem_cons_self _ _)
    have hxs : c ∉ xs := fun hm => h (List.mem_cons_of_mem _ hm)
    simp [breakAt_cons_ne hx, ih hxs]

/-! ## Patch overlay lemmas (claim C1) -/

theorem getField_setField (r : Record) (k v f : String) :
    getField (setField r k v) f = if f = k then v else getField r f := by
  induction r with
  | nil =>
    by_cases hfk : f = k <;> simp [setField, getField, hfk]
  | cons p t ih =>
    rcases p with ⟨g, w⟩
    by_cases hkg : k = g
    · subst hkg
      by_cases hfk : f = k <;> simp [setField, getField, hfk]
    · by_cases hfg : f = g
      · subst hfg
        have hfk : ¬ (f = k) := fun h => hkg h.symm
        simp [setField, getField, hkg, hfk, ih]
      · simp [setField, getField, hkg, hfg, ih]

/-- Folding the last-assignment accumulator from any starting value. -/
theorem lastAssign_foldl (f : String) (l : List (String × String)) :
    ∀ acc : Option String,
      l.foldl (fun acc a => if a.1 = f then some a.2 else acc) acc =
        match lastAssign l f with
        | some v => some v
        | none => acc := by
  induction l with
  | nil => intro acc; simp [lastAssign]
  | cons b u ih =>
    intro acc
    simp only [List.foldl_cons]
    rw [ih]
    have hu : lastAssign (b :: u) f =
        match lastAssign u f with
        | some v => some v
        | none => if b.1 = f then some b.2 else none := by
      unfold lastAssign
      simp only [List.foldl_cons]
      rw [ih]
      rfl
    rw [hu]
    rcases lastAssign u f with _ | w
    · by_cases hb : b.1 = f <;> simp [hb]
    · simp

theorem getField_applyAssignments (asgs : List (String × String))
    (r : Record) (f : String) :
    getField (applyAssignments r asgs) f =
      (lastAssign asgs f).getD (getField r f) := by
  induction asgs generalizing r with
  | nil => rfl
  | cons a t ih =>
    show getField (applyAssignments (setField r a.1 a.2) t) f = _
    rw [ih, getField_setField]
    have h : lastAssign (a :: t) f =
        match lastAssign t f with
        | some v => some v
        | none => if a.1 = f then some a.2 else none := by
      unfold lastAssign
      simp only [List.foldl_cons]
      rw [lastAssign_foldl]
      rfl
    rw [h]
    rcases lastAssign t f with _ | w
    · by_cases ha : a.1 = f
      · simp [ha]
      · have ha2 : ¬ (f = a.1) := fun hh => ha hh.symm
        simp [ha, ha2]
    · simp

theorem lastAssign_append (l₁ l₂ : List (String × String)) (f : String) :
    lastAssign (l₁ ++ l₂) f =
      match lastAssign l₂ f with
      | some v => some v
      | none => lastAssign l₁ f := by
  unfold lastAssign
  rw [List.foldl_append]
  exact lastAssign_foldl f l₂
    (l₁.foldl (fun acc a => if a.1 = f then some a.2 else acc) none)

theorem getD_match_option (X Y : Option String) (g : String) :
    (match X with | some v => some v | none => Y).getD g =
      X.getD (Y.getD g) := by
  cases X <;> simp

theorem getField_applyPatches_foldl (orig : Record) (f : String) :
    ∀ (patches : List Patch) (cur : Record),
      getField
        (patches.foldl
          (fun cur p =>
            if patchMatches orig p.1 then applyAssignments cur p.2 else cur)
          cur) f =
        (lastAssign
          ((patches.filter (fun p => patchMatches orig p.1)).flatMap
            (fun p => p.2)) f).getD (getField cur f) := by
  intro patches
  induction patches with
  | nil => intro cur; simp [lastAssign]
  | cons p t ih =>
    intro cur
    simp only [List.foldl_cons]
    rw [ih]
    by_cases hm : patchMatches orig p.1 = true
    · simp only [hm, if_true, List.filter_cons, List.flatMap_cons]
      rw [lastAssign_append, getField_applyAssignments, getD_match_option]
    · simp [hm]

/-- The value every field ends up with under the patch overlay: the last
assignment to it among the rules whose conditions match the original
record, or its original value when no matching rule assigns it. -/
theorem getField_applyPatches (orig : Record) (patches : List Patch)
    (f : String) :
    getField (applyPatches orig patches) f =
      (lastPatchedValue orig patches f).getD (getField orig f) :=
  getField_applyPatches_foldl orig f patches orig

/-- Claim C1 (counterexample): on the record and patch list of
`TestBook.test_patching`, the patch overlay does not agree with
first-match-only semantics: the later matching rule's assignment of
`state` is applied (the test asserts `'to-read'`), whereas under
first-match-only semantics `state` would keep its original value
`'read'` (the first rule assigns only `year_published`). -/
theorem patch_overlay_first_match_only_false :
    applyPatches (toAttrs mockRecord) testPatches ≠
      applyFirstMatchingPatch (toAttrs mockRecord) testPatches ∧
    getField (applyPatches (toAttrs mockRecord) testPatches) "state" =
      "to-read" ∧
    getField (applyFirstMatchingPatch (toAttrs mockRecord) testPatches)
      "state" = "read" := by
  refine ⟨by decide, by decide, by decide⟩

/-- Claim C1 (amended): for every raw record and ordered list of patch
rules, the assignments of every patch rule whose every (field,
exact-value) condition matches the record's original pre-patch values
are applied, in rule order (a later matching rule's assignment to the
same field overrides an earlier one's); assignments of non-matching
rules are never applied, and matching never consults patched values:
each field of the patched record holds the last assignment to it among
the matching rules — matching judged on the original record — or its
original value when no matching rule assigns it. -/
theorem patch_overlay_applies_all_matching_rules
    (orig : Record) (patches : List Patch) (f : String) :
    getField (applyPatches orig patches) f =
      (lastPatchedValue orig patches f).getD (getField orig f) :=
  getField_applyPatches orig patches f

/-! ## Book construction lemmas (claims C2, C3) -/

theorem mkBookCore_dateAdded (raw : Record) (asOf : Option Date)
    (patches : List Patch) :
    (mkBookCore raw asOf patches).dateAdded =
      parseDate (getField (applyPatches (toAttrs raw) patches) "date_added") :=
  rfl

theorem mkBookCore_dateRead (raw : Record) (asOf : Option Date)
    (patches : List Patch) :
    (mkBookCore raw asOf patches).dateRead =
      parseDate (getField (applyPatches (toAttrs raw) patches) "date_read") :=
  rfl

theorem mkBookCore_isRead_asOf (raw : Record) (d : Date)
    (patches : List Patch) :
    (mkBookCore raw (some d) patches).isRead =
      (match parseDate (getField (applyPatches (toAttrs raw) patches)
          "date_read") with
       | some r => !(Date.earlier d r)
       | none => false) :=
  rfl

/-- Claim C2: for every raw record with a read-date, and every as-of
date that is on or after the add-date but strictly earlier than the
read-date, construction succeeds and the resulting Book classifies as
unread while its read-date field still exposes the eventual parsed
read-date, unchanged. -/
theorem historical_view_unread_before_read_date
    (raw : Record) (patches : List Patch) (d a r : Date)
    (ha : parseDate (getField (applyPatches (toAttrs raw) patches)
        "date_added") = some a)
    (hr : parseDate (getField (applyPatches (toAttrs raw) patches)
        "date_read") = some r)
    (hda : Date.earlier d a = false)
    (hdr : Date.earlier d r = true) :
    ∃ b, mkBook raw (some d) patches = Except.ok b ∧
      b.isRead = false ∧ b.dateRead = some r := by
  refine ⟨mkBookCore raw (some d) patches, ?_, ?_, ?_⟩
  · unfold mkBook
    rw [mkBookCore_dateAdded, ha]
    simp [hda]
  · rw [mkBookCore_isRead_asOf, hr]
    simp [hdr]
  · rw [mkBookCore_dateRead, hr]

/-- Claim C2 witness: the mock record viewed as of 2013-04-01 (between
its 2012-12-22 add-date and 2015-12-25 read-date) is unread yet still
exposes the eventual read-date. -/
theorem historical_view_unread_before_read_date_witness :
    parseDate (getField (applyPatches (toAttrs mockRecord) []) "date_added") =
      some ⟨2012, 12, 22⟩ ∧
    parseDate (getField (applyPatches (toAttrs mockRecord) []) "date_read") =
      some ⟨2015, 12, 25⟩ ∧
    Date.earlier ⟨2013, 4, 1⟩ ⟨2012, 12, 22⟩ = false ∧
    Date.earlier ⟨2013, 4, 1⟩ ⟨2015, 12, 25⟩ = true ∧
    ∃ b, mkBook mockRecord (some ⟨2013, 4, 1⟩) [] = Except.ok b ∧
      b.isRead = false ∧ b.dateRead = some ⟨2015, 12, 25⟩ :=
  ⟨by decide, by decide, by decide, by decide,
    historical_view_unread_before_read_date mockRecord []
      ⟨2013, 4, 1⟩ ⟨2012, 12, 22⟩ ⟨2015, 12, 25⟩
      (by decide) (by decide) (by decide) (by decide)⟩

/-- Claim C3: constructing a Book fails (necessarily with
`NotOwnedAtSpecifiedDateError`, the only error kind) iff an as-of date
is provided that is strictly earlier than the record's parsed add-date;
in particular constructing without an as-of date never fails. -/
theorem construction_error_iff_asof_before_added
    (raw : Record) (patches : List Patch) (asOf : Option Date) :
    (∃ e, mkBook raw asOf patches = Except.error e) ↔
    (∃ d a, asOf = some d ∧
      parseDate (getField (applyPatches (toAttrs raw) patches)
        "date_added") = some a ∧
      Date.earlier d a = true) := by
  rcases asOf with _ | d
  · constructor
    · rintro ⟨e, he⟩
      unfold mkBook at he
      simp at he
    · rintro ⟨d, a, hd, -, -⟩
      exact absurd hd (by simp)
  · constructor
    · rintro ⟨e, he⟩
      unfold mkBook at he
      rw [mkBookCore_dateAdded] at he
      rcases hpa : parseDate
          (getField (applyPatches (toAttrs raw) patches) "date_added")
          with _ | a
      · rw [hpa] at he
        simp at he
      · rw [hpa] at he
        by_cases hlt : Date.earlier d a = true
        · exact ⟨d, a, rfl, rfl, hlt⟩
        · simp only [hlt] at he
          simp at he
    · rintro ⟨d2, a, hd2, hpa, hlt⟩
      cases hd2
      refine ⟨BookError.notOwnedAtSpecifiedDate, ?_⟩
      unfold mkBook
      rw [mkBookCore_dateAdded, hpa]
      simp [hlt]

/-- Claim C3 witness: the mock record constructed as of 1980-04-01
(before its 2012-12-22 add-date) fails. -/
theorem construction_error_iff_asof_before_added_witness :
    ∃ e, mkBook mockRecord (some ⟨1980, 4, 1⟩) [] = Except.error e :=
  (construction_error_iff_asof_before_added mockRecord []
      (some ⟨1980, 4, 1⟩)).mpr
    ⟨⟨1980, 4, 1⟩, ⟨2012, 12, 22⟩, rfl, by decide, by decide⟩

/-! ## Title parsing theorem (claim C4) -/

theorem seriesVolumeOfContent_first_hash_pair (rest : List Char) :
    seriesVolumeOfContent ("Empire Games #2,".toList ++ rest) =
      some ("Empire Games".toList, some ['2']) := by
  have hB : "Empire Games #2,".toList =
      "Empire Games ".toList ++ '#' :: "2,".toList := by decide
  unfold seriesVolumeOfContent
  rw [hB, List.append_assoc,
    breakAt_append_of_not_mem (by decide : '#' ∉ "Empire Games ".toList),
    List.cons_append, breakAt_cons_eq]
  have h2 : ("2,".toList : List Char) = '2' :: ',' :: [] := by decide
  rw [h2]
  simp only [List.cons_append, List.nil_append, List.append_nil]
  rw [List.takeWhile_cons_of_pos (by decide : isVolChar '2' = true),
    List.takeWhile_cons_of_neg (by decide : ¬ isVolChar ',' = true)]
  simp only [List.isEmpty_cons, Bool.false_eq_true, if_false]
  have hs : cleanSeriesName ("Empire Games ".toList) =
      "Empire Games".toList := by decide
  rw [hs]
  rw [if_neg (by decide)]

/-- Claim C4: when a title's trailing parenthetical holds several
comma-separated series references, only the first series/volume pair is
extracted: whatever follows the first pair's comma is ignored entirely
(first conjunct, for every continuation), and in particular the test
suite's title yields series "Empire Games" with volume designator "2"
(second conjunct). -/
theorem multiple_series_first_pair_extracted :
    (∀ rest : List Char,
      seriesAndVolumeCore
          ("Dark State (Empire Games #2,".toList ++ rest ++ [')']) =
        some ("Empire Games".toList, some ['2'])) ∧
    seriesAndVolume "Dark State (Empire Games #2, Merchant Princes Universe #8)" =
      some ("Empire Games", some "2") := by
  constructor
  · intro rest
    unfold seriesAndVolumeCore
    rw [List.getLast?_concat, List.dropLast_concat, if_pos rfl]
    have hP : "Dark State (Empire Games #2,".toList =
        "Dark State ".toList ++ '(' :: "Empire Games #2,".toList := by decide
    rw [hP, List.append_assoc,
      breakAt_append_of_not_mem (by decide : '(' ∉ "Dark State ".toList),
      List.cons_append, breakAt_cons_eq]
    exact seriesVolumeOfContent_first_hash_pair rest
  · decide

/-! ## Aggregation engine invariants (claim C5) -/

theorem rvuAddKey_inv {K : Type} [DecidableEq K] (u : Bool)
    (s : ReadVsUnreadReport K) (k : K)
    (h : (∀ j, j ∈ s.dom ↔ 0 < s.grouping_count j) ∧
      (∀ j, s.read_count j + s.unread_count j = s.grouping_count j)) :
    (∀ j, j ∈ (rvuAddKey u s k).dom ↔ 0 < (rvuAddKey u s k).grouping_count j) ∧
    (∀ j, (rvuAddKey u s k).read_count j + (rvuAddKey u s k).unread_count j =
      (rvuAddKey u s k).grouping_count j) := by
  obtain ⟨h1, h2⟩ := h
  constructor
  · intro j
    simp only [rvuAddKey, bump]
    by_cases hjk : j = k
    · subst hjk
      by_cases hk : j ∈ s.dom <;> simp [hk]
    · by_cases hk : k ∈ s.dom <;> simp [hk, hjk, h1 j]
  · intro j
    have hj := h2 j
    have hk2 := h2 k
    by_cases hjk : j = k
    · subst hjk
      cases u <;> simp [rvuAddKey, bump] <;> omega
    · cases u <;> simp [rvuAddKey, bump, hjk] <;> omega

theorem mkReadVsUnreadReport_inv {K : Type} [DecidableEq K]
    (truthy : K → Bool) (books : List (BookView K)) (ignS ignU : Bool) :
    (∀ j, j ∈ (mkReadVsUnreadReport truthy books ignS ignU).dom ↔
      0 < (mkReadVsUnreadReport truthy books ignS ignU).grouping_count j) ∧
    (∀ j, (mkReadVsUnreadReport truthy books ignS ignU).read_count j +
        (mkReadVsUnreadReport truthy books ignS ignU).unread_count j =
      (mkReadVsUnreadReport truthy books ignS ignU).grouping_count j) := by
  unfold mkReadVsUnreadReport
  refine foldl_induction _
    (fun s : ReadVsUnreadReport K =>
      (∀ j, j ∈ s.dom ↔ 0 < s.grouping_count j) ∧
      (∀ j, s.read_count j + s.unread_count j = s.grouping_count j))
    books _ ⟨fun j => by simp, fun j => by simp⟩ ?_
  intro s bk hs
  refine foldl_induction _
    (fun s : ReadVsUnreadReport K =>
      (∀ j, j ∈ s.dom ↔ 0 < s.grouping_count j) ∧
      (∀ j, s.read_count j + s.unread_count j = s.grouping_count j))
    bk.keys s hs ?_
  intro t k ht
  dsimp only
  by_cases htr : (truthy k || !ignU) = true
  · simp only [htr, if_true]
    exact rvuAddKey_inv bk.is_unread t k ht
  · simp only [htr, if_false]
    exact ht

theorem brrAddKey_inv {K : Type} [DecidableEq K] (br : ℕ)
    (s : BestRankedReport K) (k : K)
    (h : ∀ j, j ∈ s.dom ↔ 0 < s.rated_count j) :
    ∀ j, j ∈ (brrAddKey br s k).dom ↔ 0 < (brrAddKey br s k).rated_count j := by
  intro j
  simp only [brrAddKey, bump]
  by_cases hjk : j = k
  · subst hjk
    by_cases hk : j ∈ s.dom <;> simp [hk]
  · by_cases hk : k ∈ s.dom <;> simp [hk, hjk, h j]

theorem mkBestRankedReport_inv {K : Type} [DecidableEq K]
    (truthy : K → Bool) (books : List (BookView K)) (ignS ignU : Bool) :
    ∀ j, j ∈ (mkBestRankedReport truthy books ignS ignU).dom ↔
      0 < (mkBestRankedReport truthy books ignS ignU).rated_count j := by
  unfold mkBestRankedReport
  refine foldl_induction _
    (fun s : BestRankedReport K => ∀ j, j ∈ s.dom ↔ 0 < s.rated_count j)
    books _
    (fun j => Iff.intro (fun h => absurd h (List.not_mem_nil j))
      (fun h => absurd h (Nat.lt_irrefl 0))) ?_
  intro s bk hs
  dsimp only
  by_cases hr : bk.rating ≠ 0
  · rw [if_pos hr]
    refine foldl_induction _
      (fun s : BestRankedReport K => ∀ j, j ∈ s.dom ↔ 0 < s.rated_count j)
      bk.keys s hs ?_
    intro t k ht
    dsimp only
    by_cases htr : (truthy k || !ignU) = true
    · simp only [htr, if_true]
      exact brrAddKey_inv bk.rating t k ht
    · simp only [htr, if_false]
      exact ht
  · rw [if_neg hr]
    exact hs

/-- Claim C5: in both reports, every key present in the accumulation
tables was contributed by at least one (for `BestRankedReport`, rated)
book: for every grouping key the read and unread counts sum to the
grouping count, which is nonzero, so the `ZeroDivisionError` branch of
`ReadVsUnreadReport.process` (taken exactly when that sum is zero) is
unreachable, and the rated count dividing the rating sum in
`BestRankedReport.process` is never zero. -/
theorem report_denominators_never_zero {K : Type} [DecidableEq K]
    (truthy : K → Bool) (books : List (BookView K)) (ignS ignU : Bool) :
    (∀ k ∈ (mkReadVsUnreadReport truthy books ignS ignU).dom,
        (mkReadVsUnreadReport truthy books ignS ignU).read_count k +
            (mkReadVsUnreadReport truthy books ignS ignU).unread_count k =
          (mkReadVsUnreadReport truthy books ignS ignU).grouping_count k ∧
        (mkReadVsUnreadReport truthy books ignS ignU).read_count k +
            (mkReadVsUnreadReport truthy books ignS ignU).unread_count k ≠ 0) ∧
    (∀ k ∈ (mkBestRankedReport truthy books ignS ignU).dom,
        (mkBestRankedReport truthy books ignS ignU).rated_count k ≠ 0) := by
  obtain ⟨h1, h2⟩ := mkReadVsUnreadReport_inv truthy books ignS ignU
  refine ⟨fun k hk => ⟨h2 k, ?_⟩, fun k hk => ?_⟩
  · have := (h1 k).mp hk
    have := h2 k
    omega
  · have := (mkBestRankedReport_inv truthy books ignS ignU k).mp hk
    omega

/-- Claim C5 witness: a single unread rated book on shelf 7. -/
theorem report_denominators_never_zero_witness :
    (7 ∈ (mkReadVsUnreadReport (fun _ => true)
        [⟨[7], true, 3⟩] true true : ReadVsUnreadReport ℕ).dom ∧
      ((mkReadVsUnreadReport (fun _ => true)
          [⟨[7], true, 3⟩] true true : ReadVsUnreadReport ℕ).read_count 7 +
          (mkReadVsUnreadReport (fun _ => true)
            [⟨[7], true, 3⟩] true true : ReadVsUnreadReport ℕ).unread_count 7 =
        (mkReadVsUnreadReport (fun _ => true)
          [⟨[7], true, 3⟩] true true : ReadVsUnreadReport ℕ).grouping_count 7 ∧
        (mkReadVsUnreadReport (fun _ => true)
            [⟨[7], true, 3⟩] true true : ReadVsUnreadReport ℕ).read_count 7 +
          (mkReadVsUnreadReport (fun _ => true)
            [⟨[7], true, 3⟩] true true : ReadVsUnreadReport ℕ).unread_count 7 ≠ 0)) ∧
    (7 ∈ (mkBestRankedReport (fun _ => true)
        [⟨[7], true, 3⟩] true true : BestRankedReport ℕ).dom ∧
      (mkBestRankedReport (fun _ => true)
        [⟨[7], true, 3⟩] true true : BestRankedReport ℕ).rated_count 7 ≠ 0) :=
  ⟨⟨by decide,
    (report_denominators_never_zero (fun _ => true) [⟨[7], true, 3⟩]
      true true).1 7 (by decide)⟩,
   ⟨by decide,
    (report_denominators_never_zero (fun _ => true) [⟨[7], true, 3⟩]
      true true).2 7 (by decide)⟩⟩

/-! ## Render ordering of ReadVsUnreadReport (claim C6) -/

/-- The comparator's precedes-or-equal relation, characterized: ascending
percentage read, ties broken by larger absolute difference first, then
by ascending key. -/
theorem rvuSortLe_iff {K : Type} [LinearOrder K] (a b : RVUStat K) :
    rvuSortLe a b ↔
      (a.percentage_read < b.percentage_read ∨
        (a.percentage_read = b.percentage_read ∧
          (|b.difference| < |a.difference| ∨
            (|a.difference| = |b.difference| ∧ a.key ≤ b.key)))) := by
  unfold rvuSortLe compare_rvustat
  by_cases hp : a.percentage_read = b.percentage_read
  · rw [if_pos hp]
    by_cases hd : |b.difference| - |a.difference| = 0
    · rw [if_pos hd]
      by_cases hk : a.key > b.key
      · rw [if_pos hk]
        constructor
        · intro h; exact absurd h (by norm_num)
        · rintro (h | ⟨-, (h | ⟨-, hle⟩)⟩)
          · omega
          · omega
          · exact absurd hle (not_le.mpr hk)
      · rw [if_neg hk]
        constructor
        · intro _
          exact Or.inr ⟨hp, Or.inr ⟨by omega, not_lt.mp hk⟩⟩
        · intro _; norm_num
    · rw [if_neg hd]
      constructor
      · intro h
        exact Or.inr ⟨hp, Or.inl (by omega)⟩
      · rintro (h | ⟨-, (h | ⟨heq, -⟩)⟩)
        · omega
        · omega
        · omega
  · rw [if_neg hp]
    constructor
    · intro h
      exact Or.inl (by omega)
    · rintro (h | ⟨heq, -⟩)
      · omega
      · exact absurd heq hp

instance {K : Type} [LinearOrder K] : IsTotal (RVUStat K) rvuSortLe :=
  ⟨fun a b => by
    rw [rvuSortLe_iff, rvuSortLe_iff]
    rcases lt_trichotomy a.percentage_read b.percentage_read with h | h | h
    · exact Or.inl (Or.inl h)
    · rcases lt_trichotomy |b.difference| |a.difference| with h2 | h2 | h2
      · exact Or.inl (Or.inr ⟨h, Or.inl h2⟩)
      · rcases le_total a.key b.key with h3 | h3
        · exact Or.inl (Or.inr ⟨h, Or.inr ⟨h2.symm, h3⟩⟩)
        · exact Or.inr (Or.inr ⟨h.symm, Or.inr ⟨h2, h3⟩⟩)
      · exact Or.inr (Or.inr ⟨h.symm, Or.inl h2⟩)
    · exact Or.inr (Or.inl h)⟩

instance {K : Type} [LinearOrder K] : IsTrans (RVUStat K) rvuSortLe :=
  ⟨fun a b c hab hbc => by
    rw [rvuSortLe_iff] at hab hbc ⊢
    rcases hab with h1 | ⟨e1, h1⟩
    · rcases hbc with h2 | ⟨e2, h2⟩
      · exact Or.inl (h1.trans h2)
      · exact Or.inl (by omega)
    · rcases hbc with h2 | ⟨e2, h2⟩
      · exact Or.inl (by omega)
      · refine Or.inr ⟨e1.trans e2, ?_⟩
        rcases h1 with h1 | ⟨q1, k1⟩
        · rcases h2 with h2 | ⟨q2, k2⟩
          · exact Or.inl (h2.trans h1)
          · exact Or.inl (by omega)
        · rcases h2 with h2 | ⟨q2, k2⟩
          · exact Or.inl (by omega)
          · exact Or.inr ⟨by omega, k1.trans k2⟩⟩

/-- Claim C6: `ReadVsUnreadReport.render` emits its stats sorted with
percentage-read ascending as the primary key; among equal percentages
the stat whose read-minus-unread difference has the larger absolute
value comes first; among stats equal on both, ordering is by the group
key ascending — the emitted list is a permutation of the stats, ordered
pairwise by exactly that criterion. -/
theorem rvu_render_sorted_percentage_diff_key {K : Type} [LinearOrder K]
    (r : ReadVsUnreadReport K) :
    (rvuRenderOrder r).Perm r.stats ∧
    List.Pairwise
      (fun a b : RVUStat K =>
        a.percentage_read < b.percentage_read ∨
          (a.percentage_read = b.percentage_read ∧
            (|b.difference| < |a.difference| ∨
              (|a.difference| = |b.difference| ∧ a.key ≤ b.key))))
      (rvuRenderOrder r) := by
  constructor
  · exact List.perm_insertionSort rvuSortLe r.stats
  · have hs := List.sorted_insertionSort rvuSortLe r.stats
    exact hs.imp (fun h => (rvuSortLe_iff _ _).mp h)

/-! ## Percentage computation (claim C7) -/

/-- `log2fuel` computes the floor of the binary logarithm when given
enough fuel. -/
theorem log2fuel_spec : ∀ (fuel n : ℕ), 1 ≤ n → n ≤ fuel →
    2 ^ log2fuel fuel n ≤ n ∧ n < 2 ^ (log2fuel fuel n + 1) := by
  intro fuel
  induction fuel with
  | zero => intro n h1 h2; omega
  | succ f ih =>
    intro n h1 h2
    by_cases hn : n < 2
    · simp only [log2fuel, hn, if_true]
      constructor
      · simpa using h1
      · simpa using hn
    · have hrec := ih (n / 2) (by omega) (by omega)
      simp only [log2fuel, hn, if_false]
      constructor
      · have h := hrec.1
        rw [pow_succ]
        omega
      · have h := hrec.2
        rw [pow_succ]
        omega

/-- `natLog2` brackets its argument between consecutive powers of two. -/
theorem natLog2_spec (n : ℕ) (h : 1 ≤ n) :
    2 ^ natLog2 n ≤ n ∧ n < 2 ^ (natLog2 n + 1) :=
  log2fuel_spec n n h le_rfl

/-- Rounding a quotient to the nearest integer (ties to even) is off by
at most one half. -/
theorem divRHE_err (A B : ℕ) (hB : 0 < B) :
    |(divRHE A B : ℚ) - (A : ℚ) / B| ≤ 1 / 2 := by
  have hq := Nat.div_add_mod A B
  have hr : A % B < B := Nat.mod_lt _ hB
  have hBq : (0 : ℚ) < (B : ℚ) := by exact_mod_cast hB
  have hAB : (A : ℚ) / B = ((A / B : ℕ) : ℚ) + ((A % B : ℕ) : ℚ) / B := by
    have hqq : ((B * (A / B) + A % B : ℕ) : ℚ) = (A : ℚ) := by
      exact_mod_cast congrArg (fun x : ℕ => (x : ℚ)) hq
    push_cast at hqq
    field_simp
    linarith
  have hnn : (0 : ℚ) ≤ ((A % B : ℕ) : ℚ) / B :=
    div_nonneg (Nat.cast_nonneg _) (le_of_lt hBq)
  have hle1 : ((A % B : ℕ) : ℚ) / B ≤ 1 := by
    rw [div_le_one hBq]
    exact_mod_cast le_of_lt hr
  unfold divRHE rhe
  by_cases h1 : 2 * (A % B) < B
  · rw [if_pos h1, hAB]
    have hd : ((A / B : ℕ) : ℚ) - (((A / B : ℕ) : ℚ) + ((A % B : ℕ) : ℚ) / B) =
        -(((A % B : ℕ) : ℚ) / B) := by ring
    rw [hd, abs_neg, abs_of_nonneg hnn]
    rw [div_le_div_iff₀ hBq (by norm_num : (0 : ℚ) < 2)]
    have h1q : ((2 * (A % B) : ℕ) : ℚ) ≤ (B : ℚ) := by
      exact_mod_cast le_of_lt h1
    push_cast at h1q
    linarith
  · by_cases h2 : B < 2 * (A % B)
    · rw [if_neg h1, if_pos h2, hAB]
      push_cast
      have hd : (((A / B : ℕ) : ℚ) + 1) -
          (((A / B : ℕ) : ℚ) + ((A % B : ℕ) : ℚ) / B) =
          1 - ((A % B : ℕ) : ℚ) / B := by ring
      rw [hd, abs_of_nonneg (by linarith)]
      have h2q : (B : ℚ) ≤ ((2 * (A % B) : ℕ) : ℚ) := by
        exact_mod_cast le_of_lt h2
      push_cast at h2q
      have hhalf : (1 : ℚ) / 2 ≤ ((A % B : ℕ) : ℚ) / B := by
        rw [le_div_iff₀ hBq]
        linarith
      linarith
    · have h3 : 2 * (A % B) = B := by omega
      have hrB : ((A % B : ℕ) : ℚ) / B = 1 / 2 := by
        rw [div_eq_div_iff (ne_of_gt hBq) (by norm_num : (2 : ℚ) ≠ 0)]
        have h3q : ((2 * (A % B) : ℕ) : ℚ) = (B : ℚ) := by
          exact_mod_cast congrArg (fun x : ℕ => (x : ℚ)) h3
        push_cast at h3q
        linarith
      rw [if_neg h1, if_neg h2]
      by_cases hqe : (A / B) % 2 = 0
      · rw [if_pos hqe, hAB, hrB]
        have hd : ((A / B : ℕ) : ℚ) - (((A / B : ℕ) : ℚ) + 1 / 2) =
            -(1 / 2) := by ring
        rw [hd, abs_neg, abs_of_nonneg (by norm_num : (0:ℚ) ≤ 1/2)]
      · rw [if_neg hqe, hAB, hrB]
        push_cast
        have hd : (((A / B : ℕ) : ℚ) + 1) - (((A / B : ℕ) : ℚ) + 1 / 2) =
            1 / 2 := by ring
        rw [hd, abs_of_nonneg (by norm_num : (0:ℚ) ≤ 1/2)]

/-- The natural-number comparison `pow2LeFrac` decides `2^z ≤ a / b`. -/
theorem pow2LeFrac_iff (z : ℤ) (a b : ℕ) (hb : 0 < b) :
    pow2LeFrac z a b ↔ (2 : ℚ) ^ z ≤ (a : ℚ) / b := by
  have hbq : (0 : ℚ) < (b : ℚ) := by exact_mod_cast hb
  unfold pow2LeFrac
  rcases le_or_lt 0 z with hz | hz
  · have h1 : (-z).toNat = 0 := by omega
    have hcast : (2 : ℚ) ^ z = ((2 ^ z.toNat : ℕ) : ℚ) := by
      conv_lhs => rw [← Int.toNat_of_nonneg hz]
      rw [zpow_natCast]
      push_cast
      ring
    rw [h1, pow_zero, mul_one, hcast, le_div_iff₀ hbq]
    rw [show ((2 ^ z.toNat : ℕ) : ℚ) * (b : ℚ) = ((2 ^ z.toNat * b : ℕ) : ℚ) by
      push_cast; ring]
    rw [Nat.cast_le]
    constructor
    · intro h; calc 2 ^ z.toNat * b = b * 2 ^ z.toNat := by ring
        _ ≤ a := h
    · intro h; calc b * 2 ^ z.toNat = 2 ^ z.toNat * b := by ring
        _ ≤ a := h
  · have h1 : z.toNat = 0 := by omega
    have h2 : (0 : ℤ) ≤ -z := by omega
    have hcast : (2 : ℚ) ^ z = (((2 ^ (-z).toNat : ℕ) : ℚ))⁻¹ := by
      conv_lhs => rw [show z = -(((-z).toNat : ℕ) : ℤ) by omega]
      rw [zpow_neg, zpow_natCast]
      push_cast
      ring
    have hpq : (0 : ℚ) < ((2 ^ (-z).toNat : ℕ) : ℚ) := by
      have : (0 : ℕ) < 2 ^ (-z).toNat := Nat.pos_pow_of_pos _ (by norm_num)
      exact_mod_cast this
    rw [h1, pow_zero, mul_one, hcast, inv_eq_one_div,
      div_le_div_iff₀ hpq hbq]
    rw [show (a : ℚ) * ((2 ^ (-z).toNat : ℕ) : ℚ) = ((a * 2 ^ (-z).toNat : ℕ) : ℚ) by
      push_cast; ring]
    rw [one_mul, Nat.cast_le]

/-- `floorLog2Frac a b` is the floor of the binary logarithm of `a / b`:
the fraction lies between `2^e` and `2^(e+1)`. -/
theorem floorLog2Frac_spec (a b : ℕ) (ha : 0 < a) (hb : 0 < b) :
    (2 : ℚ) ^ floorLog2Frac a b ≤ (a : ℚ) / b ∧
    (a : ℚ) / b < 2 ^ (floorLog2Frac a b + 1) := by
  obtain ⟨ha1, ha2⟩ := natLog2_spec a ha
  obtain ⟨hb1, hb2⟩ := natLog2_spec b hb
  have hbq : (0 : ℚ) < (b : ℚ) := by exact_mod_cast hb
  have h2z : (2 : ℚ) ≠ 0 := by norm_num
  -- upper bound at e0 + 1 and lower bound at e0 - 1, via nat inequalities
  have hup : (a : ℚ) / b < 2 ^ (((natLog2 a : ℤ) - natLog2 b) + 1) := by
    have hnat : a * 2 ^ natLog2 b < 2 ^ (natLog2 a + 1) * b := by
      calc a * 2 ^ natLog2 b < 2 ^ (natLog2 a + 1) * 2 ^ natLog2 b :=
            (Nat.mul_lt_mul_right (Nat.pos_pow_of_pos _ (by norm_num))).mpr ha2
        _ ≤ 2 ^ (natLog2 a + 1) * b :=
            Nat.mul_le_mul_left _ hb1
    have hq : (a : ℚ) / b < ((2 ^ (natLog2 a + 1) : ℕ) : ℚ) / ((2 ^ natLog2 b : ℕ) : ℚ) := by
      rw [div_lt_div_iff₀ hbq (by exact_mod_cast Nat.pos_pow_of_pos (natLog2 b) (by norm_num) : (0:ℚ) < ((2 ^ natLog2 b : ℕ) : ℚ))]
      exact_mod_cast hnat
    calc (a : ℚ) / b < ((2 ^ (natLog2 a + 1) : ℕ) : ℚ) / ((2 ^ natLog2 b : ℕ) : ℚ) := hq
      _ = 2 ^ (((natLog2 a : ℤ) - natLog2 b) + 1) := by
          push_cast
          rw [← zpow_natCast (2:ℚ) (natLog2 a + 1), ← zpow_natCast (2:ℚ) (natLog2 b),
            ← zpow_sub₀ h2z]
          congr 1
          push_cast
          ring
  have hdown : (2 : ℚ) ^ (((natLog2 a : ℤ) - natLog2 b) - 1) < (a : ℚ) / b := by
    have hnat : 2 ^ natLog2 a * b < a * 2 ^ (natLog2 b + 1) := by
      calc 2 ^ natLog2 a * b < 2 ^ natLog2 a * 2 ^ (natLog2 b + 1) :=
            (Nat.mul_lt_mul_left (Nat.pos_pow_of_pos _ (by norm_num))).mpr hb2
        _ ≤ a * 2 ^ (natLog2 b + 1) :=
            Nat.mul_le_mul_right _ ha1
    have hq : ((2 ^ natLog2 a : ℕ) : ℚ) / ((2 ^ (natLog2 b + 1) : ℕ) : ℚ) < (a : ℚ) / b := by
      rw [div_lt_div_iff₀ (by exact_mod_cast Nat.pos_pow_of_pos (natLog2 b + 1) (by norm_num) : (0:ℚ) < ((2 ^ (natLog2 b + 1) : ℕ) : ℚ)) hbq]
      exact_mod_cast hnat
    calc (2 : ℚ) ^ (((natLog2 a : ℤ) - natLog2 b) - 1)
        = ((2 ^ natLog2 a : ℕ) : ℚ) / ((2 ^ (natLog2 b + 1) : ℕ) : ℚ) := by
          push_cast
          rw [← zpow_natCast (2:ℚ) (natLog2 a), ← zpow_natCast (2:ℚ) (natLog2 b + 1),
            ← zpow_sub₀ h2z]
          congr 1
          push_cast
          ring
      _ < (a : ℚ) / b := hq
  unfold floorLog2Frac
  by_cases hc : pow2LeFrac ((natLog2 a : ℤ) - (natLog2 b : ℤ)) a b
  · rw [if_pos hc]
    exact ⟨(pow2LeFrac_iff _ a b hb).mp hc, hup⟩
  · rw [if_neg hc]
    constructor
    · exact le_of_lt hdown
    · have := not_le.mp ((not_congr (pow2LeFrac_iff _ a b hb)).mp hc)
      calc (a : ℚ) / b < 2 ^ ((natLog2 a : ℤ) - natLog2 b) := this
        _ = 2 ^ ((((natLog2 a : ℤ) - natLog2 b) - 1) + 1) := by congr 1; ring

/-- Integer powers of two are positive in the rationals. -/
theorem two_zpow_pos (z : ℤ) : (0 : ℚ) < 2 ^ z := zpow_pos (by norm_num) z

/-- Shared rounding argument: if the mantissa `m` is within one half of
the exact value scaled into `[2^52, 2^53)`, the resulting double is
positive and within one part in `2^53` of the exact value. -/
theorem dyadic_round_spec (q : ℚ) (e : ℤ) (m : ℕ)
    (hle : (2 : ℚ) ^ e ≤ q)
    (hcore : |(m : ℚ) - q * 2 ^ ((52 : ℤ) - e)| ≤ 1 / 2) :
    0 < dyadicVal m e ∧ |dyadicVal m e - q| ≤ q / 2 ^ 53 := by
  have h2z : (2 : ℚ) ≠ 0 := by norm_num
  have hcancel : (2 : ℚ) ^ ((52 : ℤ) - e) * 2 ^ (e - 52) = 1 := by
    rw [← zpow_add₀ h2z]
    norm_num
  have h52 : (2 : ℚ) ^ e * 2 ^ ((52 : ℤ) - e) = 2 ^ (52 : ℤ) := by
    rw [← zpow_add₀ h2z]
    congr 1
    ring
  have hscale : (2 : ℚ) ^ (52 : ℤ) ≤ q * 2 ^ ((52 : ℤ) - e) := by
    rw [← h52]
    exact mul_le_mul_of_nonneg_right hle (le_of_lt (two_zpow_pos _))
  have h52big : (1 : ℚ) ≤ 2 ^ (52 : ℤ) := by
    rw [show ((52 : ℤ)) = ((52 : ℕ) : ℤ) from rfl, zpow_natCast]
    norm_num
  constructor
  · have hm_lb : (2 : ℚ) ^ (52 : ℤ) - 1 / 2 ≤ (m : ℚ) := by
      have h := (abs_le.mp hcore).1
      linarith
    have hm_pos : (0 : ℚ) < (m : ℚ) := by linarith
    exact mul_pos hm_pos (two_zpow_pos _)
  · have key : dyadicVal m e - q = ((m : ℚ) - q * 2 ^ ((52 : ℤ) - e)) * 2 ^ (e - 52) := by
      unfold dyadicVal
      rw [sub_mul, mul_assoc, hcancel, mul_one]
    rw [key, abs_mul, abs_of_pos (two_zpow_pos (e - 52))]
    calc |(m : ℚ) - q * 2 ^ ((52 : ℤ) - e)| * 2 ^ (e - 52)
        ≤ (1 / 2) * 2 ^ (e - 52) :=
          mul_le_mul_of_nonneg_right hcore (le_of_lt (two_zpow_pos _))
      _ = 2 ^ (e - 53) := by
          rw [show (e - 53 : ℤ) = (-1) + (e - 52) by ring, zpow_add₀ h2z]
          norm_num
      _ ≤ q * 2 ^ ((-53 : ℤ)) := by
          rw [show (e - 53 : ℤ) = e + (-53) by ring, zpow_add₀ h2z]
          exact mul_le_mul_of_nonneg_right hle (le_of_lt (two_zpow_pos _))
      _ = q / 2 ^ 53 := by
          rw [show ((-53 : ℤ)) = -((53 : ℕ) : ℤ) from rfl, zpow_neg, zpow_natCast,
            div_eq_mul_inv]

/-- Binary64 division is correctly rounded: the result is positive and
within relative error `2^(-53)` of the exact quotient. -/
theorem fldivPair_spec (a b : ℕ) (ha : 0 < a) (hb : 0 < b) :
    0 < dyadicVal (fldivPair a b).1 (fldivPair a b).2 ∧
    |dyadicVal (fldivPair a b).1 (fldivPair a b).2 - (a : ℚ) / b| ≤
      ((a : ℚ) / b) / 2 ^ 53 := by
  obtain ⟨hle, hlt⟩ := floorLog2Frac_spec a b ha hb
  have hbq : (0 : ℚ) < (b : ℚ) := by exact_mod_cast hb
  have hq_pos : (0 : ℚ) < (a : ℚ) / b :=
    div_pos (by exact_mod_cast ha) hbq
  unfold fldivPair
  by_cases he : floorLog2Frac a b ≤ 52
  · rw [if_pos he]
    dsimp only
    refine dyadic_round_spec _ _ _ hle ?_
    have hAq : ((a * 2 ^ (52 - floorLog2Frac a b).toNat : ℕ) : ℚ) / b =
        (a : ℚ) / b * 2 ^ ((52 : ℤ) - floorLog2Frac a b) := by
      have hpow : ((2 ^ (52 - floorLog2Frac a b).toNat : ℕ) : ℚ) =
          (2 : ℚ) ^ ((52 : ℤ) - floorLog2Frac a b) := by
        conv_rhs => rw [show (52 : ℤ) - floorLog2Frac a b =
          (((52 - floorLog2Frac a b).toNat : ℕ) : ℤ) by omega]
        rw [zpow_natCast]
        push_cast
        ring
      push_cast [← hpow]
      ring
    have h := divRHE_err (a * 2 ^ (52 - floorLog2Frac a b).toNat) b hb
    rwa [hAq] at h
  · rw [if_neg he]
    dsimp only
    refine dyadic_round_spec _ _ _ hle ?_
    have hBpos : 0 < b * 2 ^ (floorLog2Frac a b - 52).toNat :=
      Nat.mul_pos hb (Nat.pos_pow_of_pos _ (by norm_num))
    have hBq : (a : ℚ) / ((b * 2 ^ (floorLog2Frac a b - 52).toNat : ℕ) : ℚ) =
        (a : ℚ) / b * 2 ^ ((52 : ℤ) - floorLog2Frac a b) := by
      have hpow : ((2 ^ (floorLog2Frac a b - 52).toNat : ℕ) : ℚ) =
          (2 : ℚ) ^ (floorLog2Frac a b - (52 : ℤ)) := by
        conv_rhs => rw [show floorLog2Frac a b - (52 : ℤ) =
          (((floorLog2Frac a b - 52).toNat : ℕ) : ℤ) by omega]
        rw [zpow_natCast]
        push_cast
        ring
      have hflip : (2 : ℚ) ^ ((52 : ℤ) - floorLog2Frac a b) =
          ((2 : ℚ) ^ (floorLog2Frac a b - (52 : ℤ)))⁻¹ := by
        rw [← zpow_neg]
        congr 1
        ring
      push_cast [hpow, hflip]
      ring
    have h := divRHE_err a (b * 2 ^ (floorLog2Frac a b - 52).toNat) hBpos
    rwa [hBq] at h

/-- The binary64 product with 100 is correctly rounded: positive and
within relative error `2^(-53)` of the exact product. -/
theorem flmul100_spec (m : ℕ) (e : ℤ) (hm : 0 < m) :
    0 < dyadicVal (flmul100 m e).1 (flmul100 m e).2 ∧
    |dyadicVal (flmul100 m e).1 (flmul100 m e).2 - 100 * dyadicVal m e| ≤
      (100 * dyadicVal m e) / 2 ^ 53 := by
  have h2z : (2 : ℚ) ≠ 0 := by norm_num
  obtain ⟨hL1, hL2⟩ := natLog2_spec (100 * m) (by omega)
  have hv_pos : (0 : ℚ) < 100 * dyadicVal m e := by
    unfold dyadicVal
    have : (0 : ℚ) < (m : ℚ) := by exact_mod_cast hm
    positivity
  have hL1q : ((2 : ℚ)) ^ ((natLog2 (100 * m) : ℕ) : ℤ) ≤ ((100 * m : ℕ) : ℚ) := by
    rw [zpow_natCast]
    exact_mod_cast hL1
  have hle2 : (2 : ℚ) ^ ((natLog2 (100 * m) : ℤ) + e - 52) ≤ 100 * dyadicVal m e := by
    unfold dyadicVal
    have hsplit : (2 : ℚ) ^ ((natLog2 (100 * m) : ℤ) + e - 52) =
        2 ^ ((natLog2 (100 * m) : ℕ) : ℤ) * 2 ^ (e - 52) := by
      rw [← zpow_add₀ h2z]
      congr 1
      ring
    rw [hsplit]
    calc (2 : ℚ) ^ ((natLog2 (100 * m) : ℕ) : ℤ) * 2 ^ (e - 52)
        ≤ ((100 * m : ℕ) : ℚ) * 2 ^ (e - 52) :=
          mul_le_mul_of_nonneg_right hL1q (le_of_lt (two_zpow_pos _))
      _ = 100 * ((m : ℚ) * 2 ^ (e - 52)) := by push_cast; ring
  -- the scaled target is 100m * 2^(52 - L) in both branches
  have htarget : (100 * dyadicVal m e) * 2 ^ ((52 : ℤ) - ((natLog2 (100 * m) : ℤ) + e - 52)) =
      ((100 * m : ℕ) : ℚ) * 2 ^ ((52 : ℤ) - (natLog2 (100 * m) : ℤ)) := by
    unfold dyadicVal
    have hzz : (2 : ℚ) ^ (e - 52) *
        2 ^ ((52 : ℤ) - ((natLog2 (100 * m) : ℤ) + e - 52)) =
        2 ^ ((52 : ℤ) - (natLog2 (100 * m) : ℤ)) := by
      rw [← zpow_add₀ h2z]
      congr 1
      ring
    calc (100 * ((m : ℚ) * 2 ^ (e - 52))) *
          2 ^ ((52 : ℤ) - ((natLog2 (100 * m) : ℤ) + e - 52))
        = (100 * (m : ℚ)) * ((2 : ℚ) ^ (e - 52) *
            2 ^ ((52 : ℤ) - ((natLog2 (100 * m) : ℤ) + e - 52))) := by ring
      _ = (100 * (m : ℚ)) * 2 ^ ((52 : ℤ) - (natLog2 (100 * m) : ℤ)) := by
          rw [hzz]
      _ = ((100 * m : ℕ) : ℚ) * 2 ^ ((52 : ℤ) - (natLog2 (100 * m) : ℤ)) := by
          push_cast
          ring
  unfold flmul100
  by_cases hL : natLog2 (100 * m) ≤ 52
  · rw [if_pos hL]
    dsimp only
    refine dyadic_round_spec _ _ _ hle2 ?_
    rw [htarget]
    have hexact : ((100 * m * 2 ^ (52 - natLog2 (100 * m)) : ℕ) : ℚ) =
        ((100 * m : ℕ) : ℚ) * 2 ^ ((52 : ℤ) - (natLog2 (100 * m) : ℤ)) := by
      have hpow : ((2 ^ (52 - natLog2 (100 * m)) : ℕ) : ℚ) =
          (2 : ℚ) ^ ((52 : ℤ) - (natLog2 (100 * m) : ℤ)) := by
        conv_rhs => rw [show (52 : ℤ) - (natLog2 (100 * m) : ℤ) =
          (((52 - natLog2 (100 * m) : ℕ) : ℕ) : ℤ) by omega]
        rw [zpow_natCast]
        push_cast
        ring
      push_cast [← hpow]
      ring
    rw [hexact]
    simp
  · rw [if_neg hL]
    dsimp only
    refine dyadic_round_spec _ _ _ hle2 ?_
    rw [htarget]
    have hBpos : 0 < 2 ^ (natLog2 (100 * m) - 52) :=
      Nat.pos_pow_of_pos _ (by norm_num)
    have hBq : ((100 * m : ℕ) : ℚ) / ((2 ^ (natLog2 (100 * m) - 52) : ℕ) : ℚ) =
        ((100 * m : ℕ) : ℚ) * 2 ^ ((52 : ℤ) - (natLog2 (100 * m) : ℤ)) := by
      have hpow : ((2 ^ (natLog2 (100 * m) - 52) : ℕ) : ℚ) =
          (2 : ℚ) ^ ((natLog2 (100 * m) : ℤ) - (52 : ℤ)) := by
        conv_rhs => rw [show (natLog2 (100 * m) : ℤ) - (52 : ℤ) =
          (((natLog2 (100 * m) - 52 : ℕ) : ℕ) : ℤ) by omega]
        rw [zpow_natCast]
        push_cast
        ring
      have hflip : (2 : ℚ) ^ ((52 : ℤ) - (natLog2 (100 * m) : ℤ)) =
          ((2 : ℚ) ^ ((natLog2 (100 * m) : ℤ) - (52 : ℤ)))⁻¹ := by
        rw [← zpow_neg]
        congr 1
        ring
      push_cast [hpow, hflip]
      ring
    have h := divRHE_err (100 * m) (2 ^ (natLog2 (100 * m) - 52)) hBpos
    rwa [hBq] at h

/-- `floorOfDyadic` is the floor of the value of the double. -/
theorem floorOfDyadic_spec (m : ℕ) (e : ℤ) :
    floorOfDyadic m e = ⌊dyadicVal m e⌋₊ := by
  unfold floorOfDyadic dyadicVal
  by_cases he : 52 ≤ e
  · rw [if_pos he]
    have hcast : (m : ℚ) * 2 ^ (e - 52) = ((m * 2 ^ (e - 52).toNat : ℕ) : ℚ) := by
      have hpow : ((2 ^ (e - 52).toNat : ℕ) : ℚ) = (2 : ℚ) ^ (e - 52) := by
        conv_rhs => rw [show e - 52 = (((e - 52).toNat : ℕ) : ℤ) by omega]
        rw [zpow_natCast]
        push_cast
        ring
      push_cast [hpow]
      ring
    rw [hcast, Nat.floor_natCast]
  · rw [if_neg he]
    have hcast : (m : ℚ) * 2 ^ (e - 52) = (m : ℚ) / ((2 ^ (52 - e).toNat : ℕ) : ℚ) := by
      have hpow : ((2 ^ (52 - e).toNat : ℕ) : ℚ) = (2 : ℚ) ^ ((52 : ℤ) - e) := by
        conv_rhs => rw [show (52 : ℤ) - e = (((52 - e).toNat : ℕ) : ℤ) by omega]
        rw [zpow_natCast]
        push_cast
        ring
      rw [hpow, div_eq_mul_inv, ← zpow_neg,
        show -((52 : ℤ) - e) = e - 52 from by ring]
    rw [hcast, Nat.floor_div_eq_div]

/-- Values less than one apart have floors at most one apart. -/
theorem natFloor_close (y v : ℚ) (hy : 0 ≤ y) (hv : 0 ≤ v)
    (hclose : |y - v| < 1) : ⌊v⌋₊ ≤ ⌊y⌋₊ + 1 ∧ ⌊y⌋₊ ≤ ⌊v⌋₊ + 1 := by
  obtain ⟨hc1, hc2⟩ := abs_lt.mp hclose
  constructor
  · have hv_le : v ≤ y + 1 := by linarith
    calc ⌊v⌋₊ ≤ ⌊y + 1⌋₊ := Nat.floor_le_floor hv_le
      _ = ⌊y⌋₊ + 1 := by rw [Nat.floor_add_one hy]
  · have hy_le : y ≤ v + 1 := by linarith
    calc ⌊y⌋₊ ≤ ⌊v + 1⌋₊ := Nat.floor_le_floor hy_le
      _ = ⌊v⌋₊ + 1 := by rw [Nat.floor_add_one hv]

/-- Claim C7 (counterexample): at 29 read and 71 unread books the
program's double-precision computation `int(100 * (29/100))` yields 28
(the product `100 * 0.29` rounds to `28.999999999999996`), while
truncating 100 times the exact ratio yields 29 — the percentage is not
computed by truncating the exact quotient. -/
theorem percentage_truncation_false :
    percentageRead 29 71 = 28 ∧ exactPercentageRead 29 71 = 29 ∧
    percentageRead 29 71 ≠ exactPercentageRead 29 71 :=
  ⟨by decide, by decide, by decide⟩

/-- Claim C7 (amended): the percentage-read of a group is the `int()`
truncation of 100 times the read ratio computed in binary
double-precision floating point; it always lies within one of the
truncation of the exact ratio, and where the computation is exact in
binary — as with 1 read and 3 unread books — it coincides with it, there
yielding 25. -/
theorem percentage_read_within_one_of_truncation :
    (∀ rd ur : ℕ, 0 < rd + ur →
      exactPercentageRead rd ur ≤ percentageRead rd ur + 1 ∧
      percentageRead rd ur ≤ exactPercentageRead rd ur + 1) ∧
    percentageRead 1 3 = 25 ∧ exactPercentageRead 1 3 = 25 := by
  refine ⟨?_, by decide, by decide⟩
  intro rd ur h
  by_cases hrd : rd = 0
  · subst hrd
    have h1 : percentageRead 0 ur = 0 := by unfold percentageRead; simp
    have h2 : exactPercentageRead 0 ur = 0 := by unfold exactPercentageRead; simp
    omega
  · have hrd1 : 0 < rd := Nat.pos_of_ne_zero hrd
    have hnq : (0 : ℚ) < ((rd + ur : ℕ) : ℚ) := by exact_mod_cast h
    have hq_pos : (0 : ℚ) < (rd : ℚ) / ((rd + ur : ℕ) : ℚ) :=
      div_pos (by exact_mod_cast hrd1) hnq
    have hq_le1 : (rd : ℚ) / ((rd + ur : ℕ) : ℚ) ≤ 1 := by
      rw [div_le_one hnq]
      exact_mod_cast Nat.le_add_right rd ur
    obtain ⟨ht_pos, ht_err⟩ := fldivPair_spec rd (rd + ur) hrd1 h
    have hm2 : 0 < (fldivPair rd (rd + ur)).1 := by
      by_contra h0
      have h00 : (fldivPair rd (rd + ur)).1 = 0 := by omega
      rw [dyadicVal, h00] at ht_pos
      simp at ht_pos
    obtain ⟨hy_pos, hy_err⟩ :=
      flmul100_spec (fldivPair rd (rd + ur)).1 (fldivPair rd (rd + ur)).2 hm2
    have hpct : percentageRead rd ur =
        ⌊dyadicVal (flmul100 (fldivPair rd (rd + ur)).1
            (fldivPair rd (rd + ur)).2).1
          (flmul100 (fldivPair rd (rd + ur)).1
            (fldivPair rd (rd + ur)).2).2⌋₊ := by
      unfold percentageRead
      rw [if_neg hrd, floorOfDyadic_spec]
    have hexq : exactPercentageRead rd ur =
        ⌊(100 : ℚ) * ((rd : ℚ) / ((rd + ur : ℕ) : ℚ))⌋₊ := by
      unfold exactPercentageRead
      rw [show (100 : ℚ) * ((rd : ℚ) / ((rd + ur : ℕ) : ℚ)) =
        ((100 * rd : ℕ) : ℚ) / ((rd + ur : ℕ) : ℚ) by push_cast; ring]
      rw [Nat.floor_div_eq_div]
    set q : ℚ := (rd : ℚ) / ((rd + ur : ℕ) : ℚ) with hqdef
    set t : ℚ := dyadicVal (fldivPair rd (rd + ur)).1 (fldivPair rd (rd + ur)).2
      with htdef
    set y : ℚ := dyadicVal (flmul100 (fldivPair rd (rd + ur)).1
        (fldivPair rd (rd + ur)).2).1
      (flmul100 (fldivPair rd (rd + ur)).1 (fldivPair rd (rd + ur)).2).2
      with hydef
    have e1 : |t - q| ≤ 1 / 2 ^ 53 := by
      refine le_trans ht_err ?_
      gcongr
    have e2 : t ≤ 2 := by
      have h1 := (abs_le.mp e1).2
      have h53 : (1 : ℚ) / 2 ^ 53 ≤ 1 := by norm_num
      linarith
    have e3 : |y - 100 * t| ≤ 200 / 2 ^ 53 := by
      refine le_trans hy_err ?_
      gcongr
      linarith
    have e4 : |y - 100 * q| < 1 := by
      have tri := abs_sub_le y (100 * t) (100 * q)
      have hmul : |100 * t - 100 * q| = 100 * |t - q| := by
        rw [show (100 : ℚ) * t - 100 * q = 100 * (t - q) by ring, abs_mul,
          abs_of_pos (by norm_num : (0 : ℚ) < 100)]
      have h100 : 100 * |t - q| ≤ 100 * (1 / 2 ^ 53) :=
        mul_le_mul_of_nonneg_left e1 (by norm_num)
      have : |y - 100 * q| ≤ 200 / 2 ^ 53 + 100 * (1 / 2 ^ 53) := by
        calc |y - 100 * q| ≤ |y - 100 * t| + |100 * t - 100 * q| := tri
          _ ≤ 200 / 2 ^ 53 + 100 * (1 / 2 ^ 53) := by rw [hmul]; linarith
      calc |y - 100 * q| ≤ 200 / 2 ^ 53 + 100 * (1 / 2 ^ 53) := this
        _ < 1 := by norm_num
    obtain ⟨hb1, hb2⟩ := natFloor_close y (100 * q) (le_of_lt hy_pos)
      (by positivity) e4
    rw [hpct, hexq]
    exact ⟨hb1, hb2⟩

/-- Claim C7 witness: the amended bounds instantiated at the divergent
input itself, 29 read and 71 unread. -/
theorem percentage_read_within_one_of_truncation_witness :
    0 < 29 + 71 ∧
    (exactPercentageRead 29 71 ≤ percentageRead 29 71 + 1 ∧
      percentageRead 29 71 ≤ exactPercentageRead 29 71 + 1) :=
  ⟨by decide, percentage_read_within_one_of_truncation.1 29 71 (by decide)⟩


/-! ## Property accessor round trip (claim C8) -/

instance : IsTotal PropValue pvLe :=
  ⟨fun a b => by
    cases a with
    | pvStr s =>
      cases b with
      | pvStr t => simpa [pvLe] using le_total s t
      | pvNat m => simp [pvLe]
    | pvNat n =>
      cases b with
      | pvStr t => simp [pvLe]
      | pvNat m => simpa [pvLe] using le_total n m⟩

instance : IsTrans PropValue pvLe :=
  ⟨fun a b c hab hbc => by
    cases a <;> cases b <;> cases c <;>
      simp only [pvLe] at hab hbc ⊢ <;>
      first
      | trivial
      | exact hab.trans hbc⟩

/-- Claim C8: for every Book and supported attribute,
`property_as_hashable` returns exactly the values of
`property_as_sequence` (a permutation of them) in a deterministic,
reproducible order (sorted by the values' order), and a singular
attribute's one-element sequence yields the matching one-element
tuple. -/
theorem hashable_matches_sequence (b : Book) (a : BookAttr) :
    (propertyAsHashable b a).Perm (propertyAsSequence b a) ∧
    List.Sorted pvLe (propertyAsHashable b a) ∧
    (∀ v, propertyAsSequence b a = [v] → propertyAsHashable b a = [v]) := by
  refine ⟨List.perm_insertionSort _ _, List.sorted_insertionSort _ _, ?_⟩
  intro v hv
  have hp : (propertyAsHashable b a).Perm [v] := by
    unfold propertyAsHashable
    rw [hv]
    exact List.perm_insertionSort _ _
  exact List.perm_singleton.mp hp

/-- Claim C8 witness: the mock book's singular rating attribute. -/
theorem hashable_matches_sequence_witness :
    propertyAsSequence mockBook BookAttr.rating = [PropValue.pvNat 4] ∧
    propertyAsHashable mockBook BookAttr.rating = [PropValue.pvNat 4] :=
  ⟨by decide,
    (hashable_matches_sequence mockBook BookAttr.rating).2.2 _ (by decide)⟩

/-! ## Default filtering of single-book groups (claim C9) -/

theorem mkReadVsUnreadReport_flag {K : Type} [DecidableEq K]
    (truthy : K → Bool) (books : List (BookView K)) (ignS ignU : Bool) :
    (mkReadVsUnreadReport truthy books ignS ignU).ignore_single_book_groups =
      ignS := by
  unfold mkReadVsUnreadReport
  refine foldl_induction _
    (fun s : ReadVsUnreadReport K => s.ignore_single_book_groups = ignS)
    books _ rfl ?_
  intro s bk hs
  refine foldl_induction _
    (fun s : ReadVsUnreadReport K => s.ignore_single_book_groups = ignS)
    bk.keys s hs ?_
  intro t k ht
  dsimp only
  by_cases htr : (truthy k || !ignU) = true <;> simp [htr, rvuAddKey, ht]

theorem mkBestRankedReport_flag {K : Type} [DecidableEq K]
    (truthy : K → Bool) (books : List (BookView K)) (ignS ignU : Bool) :
    (mkBestRankedReport truthy books ignS ignU).ignore_single_book_groups =
      ignS := by
  unfold mkBestRankedReport
  refine foldl_induction _
    (fun s : BestRankedReport K => s.ignore_single_book_groups = ignS)
    books _ rfl ?_
  intro s bk hs
  dsimp only
  by_cases hr : bk.rating ≠ 0
  · rw [if_pos hr]
    refine foldl_induction _
      (fun s : BestRankedReport K => s.ignore_single_book_groups = ignS)
      bk.keys s hs ?_
    intro t k ht
    dsimp only
    by_cases htr : (truthy k || !ignU) = true <;> simp [htr, brrAddKey, ht]
  · rw [if_neg hr]
    exact hs

/-- Claim C9: with the constructors' default flags,
`ReadVsUnreadReport.process` emits no stat for a group whose total
membership is exactly one, while `BestRankedReport.process` emits a stat
for every accumulated group — including groups with a single rated
book. -/
theorem default_single_group_filtering {K : Type} [DecidableEq K]
    (truthy : K → Bool) (books : List (BookView K)) :
    (∀ st ∈ (rvuProcess (mkReadVsUnreadReport truthy books true true)).stats,
        (mkReadVsUnreadReport truthy books true true).read_count st.key +
          (mkReadVsUnreadReport truthy books true true).unread_count st.key ≠
          1) ∧
    (∀ k ∈ (mkBestRankedReport truthy books false true).dom,
        ∃ st ∈ (brrProcess (mkBestRankedReport truthy books false true)).stats,
          st.key = k ∧
          st.number_of_books_rated =
            (mkBestRankedReport truthy books false true).rated_count k) := by
  constructor
  · intro st hst
    have hflag := mkReadVsUnreadReport_flag truthy books true true
    obtain ⟨k, hk, hf⟩ := List.mem_filterMap.mp hst
    rw [hflag] at hf
    by_cases h1 : (mkReadVsUnreadReport truthy books true true).read_count k +
        (mkReadVsUnreadReport truthy books true true).unread_count k = 1
    · simp [h1] at hf
    · by_cases h0 : (mkReadVsUnreadReport truthy books true true).read_count k
          + (mkReadVsUnreadReport truthy books true true).unread_count k = 0
      · simp [h0, h1] at hf
      · simp only [h1, h0, and_false, if_false, Option.some.injEq,
          if_neg, reduceCtorEq] at hf
        have hkey : st.key = k := by
          rw [← hf]
        rw [hkey]
        exact h1
  · intro k hk
    have hflag := mkBestRankedReport_flag truthy books false true
    refine ⟨⟨k,
      ((mkBestRankedReport truthy books false true).cumulative_rating k : ℚ) /
        ((mkBestRankedReport truthy books false true).rated_count k : ℚ),
      (mkBestRankedReport truthy books false true).rated_count k⟩,
      ?_, rfl, rfl⟩
    show _ ∈ ((mkBestRankedReport truthy books false true).dom.filterMap _)
    apply List.mem_filterMap.mpr
    refine ⟨k, hk, ?_⟩
    rw [hflag]
    simp

/-- Claim C9 witness: one read rated book and one unread unrated book on
shelf 1 — the two-member group passes the read-vs-unread filter, and the
single rated book still yields a best-ranked stat. -/
theorem default_single_group_filtering_witness :
    ((mkReadVsUnreadReport (fun _ => true)
          [⟨[1], false, 4⟩, ⟨[1], true, 0⟩] true true :
        ReadVsUnreadReport ℕ).read_count
          ((⟨1, 50, 0⟩ : RVUStat ℕ)).key +
        (mkReadVsUnreadReport (fun _ => true)
          [⟨[1], false, 4⟩, ⟨[1], true, 0⟩] true true :
        ReadVsUnreadReport ℕ).unread_count
          ((⟨1, 50, 0⟩ : RVUStat ℕ)).key ≠ 1) ∧
    (∃ st ∈ (brrProcess (mkBestRankedReport (fun _ => true)
          [⟨[1], false, 4⟩, ⟨[1], true, 0⟩] false true :
        BestRankedReport ℕ)).stats,
      st.key = 1 ∧
      st.number_of_books_rated =
        (mkBestRankedReport (fun _ => true)
          [⟨[1], false, 4⟩, ⟨[1], true, 0⟩] false true :
        BestRankedReport ℕ).rated_count 1) :=
  ⟨(default_single_group_filtering (fun _ => true)
      [⟨[1], false, 4⟩, ⟨[1], true, 0⟩]).1 ⟨1, 50, 0⟩ (by decide),
   (default_single_group_filtering (fun _ => true)
      [⟨[1], false, 4⟩, ⟨[1], true, 0⟩]).2 1 (by decide)⟩

/-! ## Process purity and idempotence (claim C10) -/

/-- Claim C10: both `process` steps return the report itself with only
its stats list rebuilt: every count table (and flag and key order) of
the report is left unchanged, the stats produced do not depend on any
previously stored stats, and processing an already-processed report
reproduces it exactly — so repeated calls rebuild an identical stats
list with no accumulation or carry-over. -/
theorem process_idempotent_returns_self {K : Type} [DecidableEq K] :
    (∀ r : ReadVsUnreadReport K,
      (rvuProcess r).read_count = r.read_count ∧
      (rvuProcess r).unread_count = r.unread_count ∧
      (rvuProcess r).grouping_count = r.grouping_count ∧
      (rvuProcess r).dom = r.dom ∧
      (rvuProcess r).ignore_single_book_groups =
        r.ignore_single_book_groups ∧
      rvuProcess (rvuProcess r) = rvuProcess r ∧
      (∀ s0, (rvuProcess { r with stats := s0 }).stats =
        (rvuProcess r).stats)) ∧
    (∀ r : BestRankedReport K,
      (brrProcess r).rated_count = r.rated_count ∧
      (brrProcess r).cumulative_rating = r.cumulative_rating ∧
      (brrProcess r).rating_groupings = r.rating_groupings ∧
      (brrProcess r).dom = r.dom ∧
      (brrProcess r).ignore_single_book_groups =
        r.ignore_single_book_groups ∧
      brrProcess (brrProcess r) = brrProcess r ∧
      (∀ s0, (brrProcess { r with stats := s0 }).stats =
        (brrProcess r).stats)) :=
  ⟨fun _ => ⟨rfl, rfl, rfl, rfl, rfl, rfl, fun _ => rfl⟩,
   fun _ => ⟨rfl, rfl, rfl, rfl, rfl, rfl, fun _ => rfl⟩⟩

end GoodreadsAnalysis
